import Mathlib

/-!
Verification of the ngx-cookie CookieService (cookie-string parser, serializer,
single-slot cache, options merge) against its natural-language specification.

Strings are modelled as lists of unicode characters. The host environment
(document.cookie, encodeURIComponent, Date) is modelled explicitly; utility
functions of the repository that are not part of the provided sources
(isBlank, mergeOptions, safeDecodeURIComponent, safeJsonParse) are modelled
from the specification text and marked as such in their doc comments.
-/

namespace NgxCookie

/-! ### Percent-encoding codec (host encodeURIComponent / URL-decoding) -/

/-- Uppercase hexadecimal digit (as a code point) for a nibble. -/
def hexDigitCP (n : Nat) : Nat := if n < 10 then 48 + n else 55 + n

/-- The three-character escape %XY for one byte, as code points. -/
def percentByte (b : Nat) : List Nat := [37, hexDigitCP (b / 16), hexDigitCP (b % 16)]

/-- Standard UTF-8 byte sequence of a unicode code point. -/
def utf8Bytes (c : Nat) : List Nat :=
  if c < 128 then [c]
  else if c < 2048 then [192 + c / 64, 128 + c % 64]
  else if c < 65536 then [224 + c / 4096, 128 + c / 64 % 64, 128 + c % 64]
  else [240 + c / 262144, 128 + c / 4096 % 64, 128 + c / 64 % 64, 128 + c % 64]

/-- Characters left unescaped by the host encodeURIComponent:
alphanumerics and - _ . ! ~ * quote ( ). -/
def uriUnreserved (c : Nat) : Bool :=
  (65 ≤ c && c ≤ 90) || (97 ≤ c && c ≤ 122) || (48 ≤ c && c ≤ 57) ||
  c == 45 || c == 95 || c == 46 || c == 33 || c == 126 || c == 42 ||
  c == 39 || c == 40 || c == 41

/-- Encoding of a single code point: kept verbatim when unreserved,
otherwise every UTF-8 byte is percent-escaped. -/
def encodeCharCP (c : Nat) : List Nat :=
  if uriUnreserved c then [c] else (utf8Bytes c).foldr (fun b acc => percentByte b ++ acc) []

/-- Host model of encodeURIComponent at the code-point level. -/
def encodeCP (l : List Nat) : List Nat := l.foldr (fun c acc => encodeCharCP c ++ acc) []

/-- Value of one hexadecimal digit character (case-insensitive). -/
def hexVal (c : Nat) : Option Nat :=
  if 48 ≤ c ∧ c ≤ 57 then some (c - 48)
  else if 65 ≤ c ∧ c ≤ 70 then some (c - 55)
  else if 97 ≤ c ∧ c ≤ 102 then some (c - 87)
  else none

/-- Reads one %XY escape from the front of the input, yielding the byte
and the remaining input. -/
def readEsc : List Nat → Option (Nat × List Nat)
  | 37 :: h1 :: h2 :: rest =>
    match hexVal h1, hexVal h2 with
    | some a, some b => some (16 * a + b, rest)
    | _, _ => none
  | _ => none

/-- URL-decoding at the code-point level, fuelled (one unit of fuel per
produced code point, so input length is always enough fuel). Escapes are
decoded to bytes and byte groups are UTF-8 decoded; a malformed escape,
a malformed byte sequence, an overlong encoding or an invalid code point
yields failure, and unescaped characters pass through verbatim. -/
def decodeAux : Nat → List Nat → Option (List Nat)
  | _, [] => some []
  | 0, _ :: _ => none
  | fuel + 1, c :: rest =>
    if c = 37 then
      match readEsc (c :: rest) with
      | none => none
      | some (b1, r1) =>
        if b1 < 128 then (decodeAux fuel r1).map (b1 :: ·)
        else if b1 < 192 then none
        else if b1 < 224 then
          match readEsc r1 with
          | none => none
          | some (b2, r2) =>
            if b2 < 128 ∨ 192 ≤ b2 then none
            else if (b1 - 192) * 64 + (b2 - 128) < 128 then none
            else (decodeAux fuel r2).map (((b1 - 192) * 64 + (b2 - 128)) :: ·)
        else if b1 < 240 then
          match readEsc r1 with
          | none => none
          | some (b2, r2) =>
            match readEsc r2 with
            | none => none
            | some (b3, r3) =>
              if b2 < 128 ∨ 192 ≤ b2 ∨ b3 < 128 ∨ 192 ≤ b3 then none
              else if (b1 - 224) * 4096 + (b2 - 128) * 64 + (b3 - 128) < 2048 ∨
                  (55296 ≤ (b1 - 224) * 4096 + (b2 - 128) * 64 + (b3 - 128) ∧
                    (b1 - 224) * 4096 + (b2 - 128) * 64 + (b3 - 128) < 57344) then none
              else (decodeAux fuel r3).map (((b1 - 224) * 4096 + (b2 - 128) * 64 + (b3 - 128)) :: ·)
        else if b1 < 248 then
          match readEsc r1 with
          | none => none
          | some (b2, r2) =>
            match readEsc r2 with
            | none => none
            | some (b3, r3) =>
              match readEsc r3 with
              | none => none
              | some (b4, r4) =>
                if b2 < 128 ∨ 192 ≤ b2 ∨ b3 < 128 ∨ 192 ≤ b3 ∨ b4 < 128 ∨ 192 ≤ b4 then none
                else if (b1 - 240) * 262144 + (b2 - 128) * 4096 + (b3 - 128) * 64 + (b4 - 128) < 65536 ∨
                    1114112 ≤ (b1 - 240) * 262144 + (b2 - 128) * 4096 + (b3 - 128) * 64 + (b4 - 128) then none
                else (decodeAux fuel r4).map
                  (((b1 - 240) * 262144 + (b2 - 128) * 4096 + (b3 - 128) * 64 + (b4 - 128)) :: ·)
        else none
    else
      (decodeAux fuel rest).map (c :: ·)

/-- URL-decoding at the code-point level. -/
def decodeCP (l : List Nat) : Option (List Nat) := decodeAux l.length l

/-- Host model of encodeURIComponent on character lists. -/
def encodeURIComponent (s : List Char) : List Char :=
  (encodeCP (s.map Char.toNat)).map Char.ofNat

/-- Host model of decodeURIComponent on character lists: fails (in the host,
raises URIError) on malformed input. -/
def decodeURIComponentCore (s : List Char) : Option (List Char) :=
  (decodeCP (s.map Char.toNat)).map (fun l => l.map Char.ofNat)

/-- Modelled from the spec: safeDecodeURIComponent from the utils module
(not among the provided sources) is a tolerant decode that URL-decodes its
argument and returns the original substring unmodified when decoding fails. -/
def safeDecodeURIComponent (s : List Char) : List Char :=
  (decodeURIComponentCore s).getD s

/-! ### Roundtrip: decoding inverts encoding -/

theorem hexVal_hexDigitCP (n : Nat) (h : n < 16) : hexVal (hexDigitCP n) = some n := by
  by_cases h10 : n < 10
  · rw [hexDigitCP, if_pos h10, hexVal, if_pos (by omega)]
    congr 1
    omega
  · rw [hexDigitCP, if_neg h10, hexVal, if_neg (by omega), if_pos (by omega)]
    congr 1
    omega

theorem readEsc_percentByte (b : Nat) (hb : b < 256) (t : List Nat) :
    readEsc (percentByte b ++ t) = some (b, t) := by
  simp only [percentByte, List.cons_append, List.nil_append, readEsc,
    hexVal_hexDigitCP (b / 16) (by omega), hexVal_hexDigitCP (b % 16) (by omega)]
  congr 2
  omega

theorem decodeAux_esc1 (f : Nat) (b : Nat) (t : List Nat) (hb : b < 128) :
    decodeAux (f + 1) (percentByte b ++ t) = (decodeAux f t).map (b :: ·) := by
  have h := readEsc_percentByte b (by omega) t
  simp only [percentByte, List.cons_append, List.nil_append] at h ⊢
  rw [decodeAux]
  simp only [if_pos rfl, h, if_pos hb, if_true, eq_self_iff_true]

theorem decodeAux_esc2 (f c : Nat) (t : List Nat) (h1 : 128 ≤ c) (h2 : c < 2048) :
    decodeAux (f + 1) (percentByte (192 + c / 64) ++ (percentByte (128 + c % 64) ++ t)) =
      (decodeAux f t).map (c :: ·) := by
  have e1 := readEsc_percentByte (192 + c / 64) (by omega) (percentByte (128 + c % 64) ++ t)
  have e2 := readEsc_percentByte (128 + c % 64) (by omega) t
  simp only [percentByte, List.cons_append, List.nil_append] at e1 e2 ⊢
  rw [decodeAux]
  simp only [e1, e2,
    if_pos (show (37 : Nat) = 37 from rfl),
    if_neg (show ¬(192 + c / 64 < 128) by omega),
    if_neg (show ¬(192 + c / 64 < 192) by omega),
    if_pos (show 192 + c / 64 < 224 by omega),
    if_neg (show ¬(128 + c % 64 < 128 ∨ 192 ≤ 128 + c % 64) by omega),
    if_neg (show ¬((192 + c / 64 - 192) * 64 + (128 + c % 64 - 128) < 128) by omega),
    show (192 + c / 64 - 192) * 64 + (128 + c % 64 - 128) = c by omega,
    if_neg (show ¬(c < 128) by omega), if_true]

theorem decodeAux_esc3 (f c : Nat) (t : List Nat) (h1 : 2048 ≤ c) (h2 : c < 65536)
    (h3 : ¬(55296 ≤ c ∧ c < 57344)) :
    decodeAux (f + 1) (percentByte (224 + c / 4096) ++
      (percentByte (128 + c / 64 % 64) ++ (percentByte (128 + c % 64) ++ t))) =
      (decodeAux f t).map (c :: ·) := by
  have e1 := readEsc_percentByte (224 + c / 4096) (by omega)
    (percentByte (128 + c / 64 % 64) ++ (percentByte (128 + c % 64) ++ t))
  have e2 := readEsc_percentByte (128 + c / 64 % 64) (by omega) (percentByte (128 + c % 64) ++ t)
  have e3 := readEsc_percentByte (128 + c % 64) (by omega) t
  simp only [percentByte, List.cons_append, List.nil_append] at e1 e2 e3 ⊢
  rw [decodeAux]
  simp only [e1, e2, e3,
    if_pos (show (37 : Nat) = 37 from rfl),
    if_neg (show ¬(224 + c / 4096 < 128) by omega),
    if_neg (show ¬(224 + c / 4096 < 192) by omega),
    if_neg (show ¬(224 + c / 4096 < 224) by omega),
    if_pos (show 224 + c / 4096 < 240 by omega),
    if_neg (show ¬(128 + c / 64 % 64 < 128 ∨ 192 ≤ 128 + c / 64 % 64 ∨
      128 + c % 64 < 128 ∨ 192 ≤ 128 + c % 64) by omega),
    if_neg (show ¬((224 + c / 4096 - 224) * 4096 + (128 + c / 64 % 64 - 128) * 64 +
        (128 + c % 64 - 128) < 2048 ∨
      (55296 ≤ (224 + c / 4096 - 224) * 4096 + (128 + c / 64 % 64 - 128) * 64 +
        (128 + c % 64 - 128) ∧
       (224 + c / 4096 - 224) * 4096 + (128 + c / 64 % 64 - 128) * 64 +
        (128 + c % 64 - 128) < 57344)) by omega),
    show (224 + c / 4096 - 224) * 4096 + (128 + c / 64 % 64 - 128) * 64 +
      (128 + c % 64 - 128) = c by omega,
    if_neg (show ¬(c < 2048 ∨ 55296 ≤ c ∧ c < 57344) by omega), if_true]

theorem decodeAux_esc4 (f c : Nat) (t : List Nat) (h1 : 65536 ≤ c) (h2 : c < 1114112) :
    decodeAux (f + 1) (percentByte (240 + c / 262144) ++
      (percentByte (128 + c / 4096 % 64) ++
        (percentByte (128 + c / 64 % 64) ++ (percentByte (128 + c % 64) ++ t)))) =
      (decodeAux f t).map (c :: ·) := by
  have e1 := readEsc_percentByte (240 + c / 262144) (by omega)
    (percentByte (128 + c / 4096 % 64) ++
      (percentByte (128 + c / 64 % 64) ++ (percentByte (128 + c % 64) ++ t)))
  have e2 := readEsc_percentByte (128 + c / 4096 % 64) (by omega)
    (percentByte (128 + c / 64 % 64) ++ (percentByte (128 + c % 64) ++ t))
  have e3 := readEsc_percentByte (128 + c / 64 % 64) (by omega) (percentByte (128 + c % 64) ++ t)
  have e4 := readEsc_percentByte (128 + c % 64) (by omega) t
  simp only [percentByte, List.cons_append, List.nil_append] at e1 e2 e3 e4 ⊢
  rw [decodeAux]
  simp only [e1, e2, e3, e4,
    if_pos (show (37 : Nat) = 37 from rfl),
    if_neg (show ¬(240 + c / 262144 < 128) by omega),
    if_neg (show ¬(240 + c / 262144 < 192) by omega),
    if_neg (show ¬(240 + c / 262144 < 224) by omega),
    if_neg (show ¬(240 + c / 262144 < 240) by omega),
    if_pos (show 240 + c / 262144 < 248 by omega),
    if_neg (show ¬(128 + c / 4096 % 64 < 128 ∨ 192 ≤ 128 + c / 4096 % 64 ∨
      128 + c / 64 % 64 < 128 ∨ 192 ≤ 128 + c / 64 % 64 ∨
      128 + c % 64 < 128 ∨ 192 ≤ 128 + c % 64) by omega),
    if_neg (show ¬((240 + c / 262144 - 240) * 262144 + (128 + c / 4096 % 64 - 128) * 4096 +
        (128 + c / 64 % 64 - 128) * 64 + (128 + c % 64 - 128) < 65536 ∨
      1114112 ≤ (240 + c / 262144 - 240) * 262144 + (128 + c / 4096 % 64 - 128) * 4096 +
        (128 + c / 64 % 64 - 128) * 64 + (128 + c % 64 - 128)) by omega),
    show (240 + c / 262144 - 240) * 262144 + (128 + c / 4096 % 64 - 128) * 4096 +
      (128 + c / 64 % 64 - 128) * 64 + (128 + c % 64 - 128) = c by omega,
    if_neg (show ¬(c < 65536 ∨ 1114112 ≤ c) by omega), if_true]

theorem decodeAux_lit (f c : Nat) (t : List Nat) (hc : c ≠ 37) :
    decodeAux (f + 1) (c :: t) = (decodeAux f t).map (c :: ·) := by
  rw [decodeAux, if_neg hc]

theorem decodeAux_nil (f : Nat) : decodeAux f [] = some [] := by
  cases f <;> rfl

theorem uriUnreserved_spec (c : Nat) (h : uriUnreserved c = true) :
    (65 ≤ c ∧ c ≤ 90) ∨ (97 ≤ c ∧ c ≤ 122) ∨ (48 ≤ c ∧ c ≤ 57) ∨
    c = 45 ∨ c = 95 ∨ c = 46 ∨ c = 33 ∨ c = 126 ∨ c = 42 ∨ c = 39 ∨ c = 40 ∨ c = 41 := by
  simp only [uriUnreserved, Bool.or_eq_true, Bool.and_eq_true, decide_eq_true_eq,
    beq_iff_eq] at h
  tauto

theorem decodeAux_encodeCharCP (f c : Nat) (t : List Nat) (hc : c.isValidChar) :
    decodeAux (f + 1) (encodeCharCP c ++ t) = (decodeAux f t).map (c :: ·) := by
  rcases hc with hc | hc
  all_goals by_cases hu : uriUnreserved c = true
  · rw [encodeCharCP, if_pos hu, List.cons_append, List.nil_append]
    exact decodeAux_lit f c t (by rcases uriUnreserved_spec c hu with h | h | h | h <;> omega)
  · rw [encodeCharCP, if_neg hu]
    by_cases h1 : c < 128
    · rw [utf8Bytes, if_pos h1]
      simp only [List.foldr_cons, List.foldr_nil, List.append_nil]
      exact decodeAux_esc1 f c t h1
    · by_cases h2 : c < 2048
      · rw [utf8Bytes, if_neg h1, if_pos h2]
        simp only [List.foldr_cons, List.foldr_nil, List.append_nil, List.append_assoc]
        exact decodeAux_esc2 f c t (by omega) h2
      · rw [utf8Bytes, if_neg h1, if_neg h2, if_pos (by omega)]
        simp only [List.foldr_cons, List.foldr_nil, List.append_nil, List.append_assoc]
        exact decodeAux_esc3 f c t (by omega) (by omega) (by omega)
  · rw [encodeCharCP, if_pos hu, List.cons_append, List.nil_append]
    exact decodeAux_lit f c t (by rcases uriUnreserved_spec c hu with h | h | h | h <;> omega)
  · rw [encodeCharCP, if_neg hu]
    by_cases h3 : c < 65536
    · rw [utf8Bytes, if_neg (by omega), if_neg (by omega), if_pos h3]
      simp only [List.foldr_cons, List.foldr_nil, List.append_nil, List.append_assoc]
      exact decodeAux_esc3 f c t (by omega) h3 (by omega)
    · rw [utf8Bytes, if_neg (by omega), if_neg (by omega), if_neg h3]
      simp only [List.foldr_cons, List.foldr_nil, List.append_nil, List.append_assoc]
      exact decodeAux_esc4 f c t (by omega) (by omega)

theorem encodeCP_nil : encodeCP [] = [] := rfl

theorem encodeCP_cons (c : Nat) (l : List Nat) :
    encodeCP (c :: l) = encodeCharCP c ++ encodeCP l := rfl

theorem encodeCharCP_length_pos (c : Nat) : 1 ≤ (encodeCharCP c).length := by
  rw [encodeCharCP]
  by_cases hu : uriUnreserved c = true
  · rw [if_pos hu]
    simp
  · rw [if_neg hu, utf8Bytes]
    by_cases h1 : c < 128
    · rw [if_pos h1]
      simp [percentByte]
    · by_cases h2 : c < 2048
      · rw [if_neg h1, if_pos h2]
        simp [percentByte]
      · by_cases h3 : c < 65536
        · rw [if_neg h1, if_neg h2, if_pos h3]
          simp [percentByte]
        · rw [if_neg h1, if_neg h2, if_neg h3]
          simp [percentByte]

theorem decodeAux_encodeCP (l : List Nat) (hl : ∀ c ∈ l, c.isValidChar) :
    ∀ f, (encodeCP l).length ≤ f → decodeAux f (encodeCP l) = some l := by
  induction l with
  | nil => intro f _; exact decodeAux_nil f
  | cons c t ih =>
    intro f hf
    rw [encodeCP_cons] at hf ⊢
    cases f with
    | zero =>
      exfalso
      have := encodeCharCP_length_pos c
      simp only [List.length_append] at hf
      omega
    | succ f =>
      rw [decodeAux_encodeCharCP f c (encodeCP t) (hl c (by simp))]
      rw [ih (fun x hx => hl x (by simp [hx])) f
        (by simp only [List.length_append] at hf; have := encodeCharCP_length_pos c; omega)]
      rfl

theorem decodeCP_encodeCP (l : List Nat) (hl : ∀ c ∈ l, c.isValidChar) :
    decodeCP (encodeCP l) = some l :=
  decodeAux_encodeCP l hl (encodeCP l).length (le_refl _)

/-- Every code point the encoder can emit: ASCII, and never an equals sign,
semicolon or space. -/
def encOut (x : Nat) : Prop := x < 128 ∧ x ≠ 61 ∧ x ≠ 59 ∧ x ≠ 32

theorem encOut_percentByte (b x : Nat) (hb : b < 256) (hx : x ∈ percentByte b) : encOut x := by
  simp only [percentByte, List.mem_cons, List.not_mem_nil, or_false] at hx
  have h16 : b / 16 < 16 ∨ 16 ≤ b / 16 := by omega
  rcases hx with h | h | h
  · rw [h]; exact ⟨by omega, by omega, by omega, by omega⟩
  · rw [h, hexDigitCP]
    have hm : b % 16 < 16 := by omega
    by_cases h10 : b / 16 < 10
    · rw [if_pos h10]; exact ⟨by omega, by omega, by omega, by omega⟩
    · rw [if_neg h10]
      constructor
      · omega
      · refine ⟨by omega, by omega, by omega⟩
  · rw [h, hexDigitCP]
    have hm : b % 16 < 16 := by omega
    by_cases h10 : b % 16 < 10
    · rw [if_pos h10]; exact ⟨by omega, by omega, by omega, by omega⟩
    · rw [if_neg h10]; exact ⟨by omega, by omega, by omega, by omega⟩

theorem utf8Bytes_lt256 (c : Nat) (hc : c < 1114112) : ∀ b ∈ utf8Bytes c, b < 256 := by
  intro b hb
  rw [utf8Bytes] at hb
  by_cases h1 : c < 128
  · rw [if_pos h1] at hb
    simp only [List.mem_cons, List.not_mem_nil, or_false] at hb
    omega
  · by_cases h2 : c < 2048
    · rw [if_neg h1, if_pos h2] at hb
      simp only [List.mem_cons, List.not_mem_nil, or_false] at hb
      omega
    · by_cases h3 : c < 65536
      · rw [if_neg h1, if_neg h2, if_pos h3] at hb
        simp only [List.mem_cons, List.not_mem_nil, or_false] at hb
        omega
      · rw [if_neg h1, if_neg h2, if_neg h3] at hb
        simp only [List.mem_cons, List.not_mem_nil, or_false] at hb
        omega

theorem mem_foldr_percent (L : List Nat) (x : Nat) :
    x ∈ L.foldr (fun b acc => percentByte b ++ acc) [] ↔ ∃ b ∈ L, x ∈ percentByte b := by
  induction L with
  | nil => simp
  | cons b t ih => simp [List.mem_append, ih]

theorem encOut_encodeCharCP (c x : Nat) (hc : c.isValidChar) (hx : x ∈ encodeCharCP c) :
    encOut x := by
  rw [encodeCharCP] at hx
  by_cases hu : uriUnreserved c = true
  · rw [if_pos hu] at hx
    simp only [List.mem_cons, List.not_mem_nil, or_false] at hx
    have h := uriUnreserved_spec c hu
    exact ⟨by omega, by omega, by omega, by omega⟩
  · rw [if_neg hu] at hx
    rw [mem_foldr_percent] at hx
    obtain ⟨b, hb, hxb⟩ := hx
    have hc' : c < 1114112 := by rcases hc with h | h <;> omega
    exact encOut_percentByte b x (utf8Bytes_lt256 c hc' b hb) hxb

theorem encOut_encodeCP (l : List Nat) (hl : ∀ c ∈ l, c.isValidChar) :
    ∀ x ∈ encodeCP l, encOut x := by
  induction l with
  | nil => intro x hx; simp [encodeCP_nil] at hx
  | cons c t ih =>
    intro x hx
    rw [encodeCP_cons, List.mem_append] at hx
    rcases hx with hx | hx
    · exact encOut_encodeCharCP c x (hl c (by simp)) hx
    · exact ih (fun y hy => hl y (by simp [hy])) x hx

/-! ### Lifting the codec roundtrip to character lists -/

theorem char_toNat_isValidChar (c : Char) : c.toNat.isValidChar := c.valid

theorem char_toNat_ofNat (n : Nat) (h : n.isValidChar) : (Char.ofNat n).toNat = n := by
  simp only [Char.ofNat, dif_pos h, Char.ofNatAux, Char.toNat, UInt32.toNat]
  rfl

theorem map_toNat_encodeURIComponent (s : List Char) :
    (encodeURIComponent s).map Char.toNat = encodeCP (s.map Char.toNat) := by
  rw [encodeURIComponent, List.map_map]
  have : ∀ x ∈ encodeCP (s.map Char.toNat), (Char.toNat ∘ Char.ofNat) x = id x := by
    intro x hx
    have hv : x.isValidChar := by
      have := (encOut_encodeCP (s.map Char.toNat)
        (by intro c hc; obtain ⟨d, _, rfl⟩ := List.mem_map.mp hc; exact d.valid) x hx).1
      exact Or.inl (by omega)
    exact char_toNat_ofNat x hv
  rw [List.map_congr_left this, List.map_id]

theorem safeDecode_encode (s : List Char) :
    safeDecodeURIComponent (encodeURIComponent s) = s := by
  have hdec : decodeURIComponentCore (encodeURIComponent s) = some s := by
    rw [decodeURIComponentCore, map_toNat_encodeURIComponent,
      decodeCP_encodeCP (s.map Char.toNat)
        (by intro c hc; obtain ⟨d, _, rfl⟩ := List.mem_map.mp hc; exact d.valid)]
    have hmap : (s.map Char.toNat).map Char.ofNat = s := by
      have h : ∀ x ∈ s, (Char.ofNat ∘ Char.toNat) x = id x := fun x _ => Char.ofNat_toNat x
      rw [List.map_map, List.map_congr_left h, List.map_id]
    rw [Option.map_some', hmap]
  rw [safeDecodeURIComponent, hdec]
  rfl

/-! ### Cookie options and their merge -/

/-- The CookieOptions record: optional serialization attributes. Absent
fields model undefined values of the host language. -/
structure CookieOptions where
  path : Option (List Char) := none
  domain : Option (List Char) := none
  expires : Option (List Char) := none
  secure : Option Bool := none
  httpOnly : Option Bool := none
  sameSite : Option (List Char) := none
  storeUnencoded : Option Bool := none
  deriving DecidableEq

/-- Truthiness of an optional string in the host language: an absent value
and the empty string are falsy. -/
def truthyS : Option (List Char) → Bool
  | none => false
  | some s => !s.isEmpty

/-- Truthiness of an optional boolean in the host language. -/
def truthyB : Option Bool → Bool
  | none => false
  | some b => b

/-- Modelled from the spec: isBlank from the utils module (not among the
provided sources); the spec treats the value as blank when it is
absent or empty. -/
def isBlank : Option (List Char) → Bool
  | none => true
  | some s => s.isEmpty

/-- Modelled from the spec: one key of the shallow options merge — a key
present in the per-call options takes its per-call value, an unset key
inherits the default. -/
def mergeField {α : Type} (d o : Option α) : Option α :=
  match o with
  | some v => some v
  | none => d

/-- Modelled from the spec: mergeOptions from the utils module (not among
the provided sources) — shallow key-by-key merge, call site wins on
conflict, unset keys inherit the default; an absent per-call record leaves
the defaults unchanged. -/
def mergeOptions (d : CookieOptions) (o : Option CookieOptions) : CookieOptions :=
  match o with
  | none => d
  | some o =>
    { path := mergeField d.path o.path
      domain := mergeField d.domain o.domain
      expires := mergeField d.expires o.expires
      secure := mergeField d.secure o.secure
      httpOnly := mergeField d.httpOnly o.httpOnly
      sameSite := mergeField d.sameSite o.sameSite
      storeUnencoded := mergeField d.storeUnencoded o.storeUnencoded }

/-! ### The cookie writer (buildCookieString) -/

/-- The fixed past timestamp the writer uses for deletion. -/
def epochDate : List Char := "Thu, 01 Jan 1970 00:00:00 GMT".data

/-- Host Date model: the writer converts a textual expiration to a Date and
renders it with toUTCString; for a canonical HTTP-date text this reproduces
the text itself, which is what the model keeps. -/
def dateToUTCString (d : List Char) : List Char := d

/-- String length as the host counts it (UTF-16 code units). -/
def jsLength : List Char → Nat
  | [] => 0
  | c :: t => (if c.toNat < 65536 then 1 else 2) + jsLength t

/-- The path attribute segment appended by the serializer. -/
def pathSeg (opts : CookieOptions) : List Char :=
  if truthyS opts.path then ";path=".data ++ opts.path.getD [] else []

/-- The expires attribute segment appended by the serializer, from the
expiration value in force after blank-value handling. -/
def expiresSeg (e : Option (List Char)) : List Char :=
  match e with
  | some x => ";expires=".data ++ dateToUTCString x
  | none => []

/-- The domain attribute segment appended by the serializer. -/
def domainSeg (opts : CookieOptions) : List Char :=
  if truthyS opts.domain then ";domain=".data ++ opts.domain.getD [] else []

/-- The valueless secure attribute segment appended by the serializer. -/
def secureSeg (opts : CookieOptions) : List Char :=
  if truthyB opts.secure then ";secure".data else []

/-- The valueless HttpOnly attribute segment appended by the serializer. -/
def httpOnlySeg (opts : CookieOptions) : List Char :=
  if truthyB opts.httpOnly then ";HttpOnly".data else []

/-- The sameSite attribute segment appended by the serializer. -/
def sameSiteSeg (opts : CookieOptions) : List Char :=
  if truthyS opts.sameSite then ";sameSite=".data ++ opts.sameSite.getD [] else []

/-- The serializer, translated from CookieService buildCookieString.
Returns the built string together with the oversize-diagnostic flag (the
source logs to the console exactly when length + 1 exceeds 4096; the flag
records that the diagnostic was emitted). -/
def buildCookieStringPair (defaults : CookieOptions) (name : List Char)
    (value : Option (List Char)) (options : Option CookieOptions) :
    List Char × Bool :=
  let opts := mergeOptions defaults options
  let expires : Option (List Char) := if isBlank value then some epochDate else opts.expires
  let val : List Char := if isBlank value then [] else value.getD []
  let cookieValue := if truthyB opts.storeUnencoded then val else encodeURIComponent val
  let str := encodeURIComponent name ++ '=' :: cookieValue ++ pathSeg opts ++
    expiresSeg expires ++ domainSeg opts ++ secureSeg opts ++ httpOnlySeg opts ++
    sameSiteSeg opts
  (str, 4096 < jsLength str + 1)

/-- The string the serializer assigns to the jar resource. -/
def buildCookieString (defaults : CookieOptions) (name : List Char)
    (value : Option (List Char)) (options : Option CookieOptions) : List Char :=
  (buildCookieStringPair defaults name value options).1

/-- The serialized shape the spec describes (written from the words of the
spec, for comparison with the translated serializer): encoded name, equals
sign, value (encoded unless the raw-storage flag is set), then attribute
segments each prefixed by a semicolon, in the fixed order path, expires,
domain, secure, HttpOnly, sameSite, each included only when truthy. -/
def specCookieString (opts : CookieOptions) (name v : List Char) : List Char :=
  encodeURIComponent name ++
    '=' :: (if truthyB opts.storeUnencoded then v else encodeURIComponent v) ++
    (if truthyS opts.path then ";path=".data ++ opts.path.getD [] else []) ++
    (match opts.expires with
     | some e => ";expires=".data ++ dateToUTCString e
     | none => []) ++
    (if truthyS opts.domain then ";domain=".data ++ opts.domain.getD [] else []) ++
    (if truthyB opts.secure then ";secure".data else []) ++
    (if truthyB opts.httpOnly then ";HttpOnly".data else []) ++
    (if truthyS opts.sameSite then ";sameSite=".data ++ opts.sameSite.getD [] else [])

/-! ### The cookie reader (readCookies) -/

/-- Index of the first equals sign, the indexOf of the source. -/
def firstEq : List Char → Option Nat
  | [] => none
  | c :: rest => if c = '=' then some 0 else (firstEq rest).map (· + 1)

/-- One segment of the jar string: discarded when it has no equals sign or
a nameless one at position zero, otherwise split at the first equals sign
and both halves URL-decoded tolerantly. -/
def parseSeg (s : List Char) : Option (List Char × List Char) :=
  match firstEq s with
  | none => none
  | some 0 => none
  | some (i + 1) =>
    some (safeDecodeURIComponent (s.take (i + 1)), safeDecodeURIComponent (s.drop (i + 2)))

/-- Insertion into the map being built: the first value seen for a name
wins, later duplicates are discarded. -/
def insertAbsent (m : List (List Char × List Char)) (k v : List Char) :
    List (List Char × List Char) :=
  if (m.lookup k).isSome then m else m ++ [(k, v)]

/-- The parse loop over the split segments. -/
def readGo : List (List Char) → List (List Char × List Char) → List (List Char × List Char)
  | [], m => m
  | s :: rest, m =>
    match parseSeg s with
    | none => readGo rest m
    | some (k, v) => readGo rest (insertAbsent m k v)

/-- The host split of the jar string on the two-character separator of a
semicolon followed by a space, scanning left to right; the empty string
splits to one empty segment. -/
def splitJar : List Char → List (List Char)
  | [] => [[]]
  | [c] => [[c]]
  | c :: d :: rest =>
    if c = ';' ∧ d = ' ' then [] :: splitJar rest
    else
      match splitJar (d :: rest) with
      | s :: ss => (c :: s) :: ss
      | [] => [[c]]

/-- The parser of CookieService readCookies applied to a raw jar string. -/
def jarParse (doc : List Char) : List (List Char × List Char) := readGo (splitJar doc) []

/-! ### Host jar models and the service state -/

/-- The expires attribute segment carrying the fixed past timestamp. -/
def epochAttr : List Char := "expires=Thu, 01 Jan 1970 00:00:00 GMT".data

/-- Split on single semicolons (for reading attribute segments of an
assigned cookie string). -/
def splitSemi : List Char → List (List Char)
  | [] => [[]]
  | c :: rest =>
    if c = ';' then [] :: splitSemi rest
    else
      match splitSemi rest with
      | s :: ss => (c :: s) :: ss
      | [] => [[c]]

/-- The name and value pair of an assigned cookie string: the part before
the first semicolon, split at its first equals sign. -/
def pairOfSet (s : List Char) : List Char × List Char :=
  match firstEq (s.takeWhile (fun c => c != ';')) with
  | some i =>
    ((s.takeWhile (fun c => c != ';')).take i, (s.takeWhile (fun c => c != ';')).drop (i + 1))
  | none => (s.takeWhile (fun c => c != ';'), [])

/-- Whether an assigned cookie string carries the fixed past expiration the
writer uses for deletion. -/
def isExpireWrite (s : List Char) : Bool :=
  (splitSemi (s.dropWhile (fun c => c != ';'))).contains epochAttr

/-- Replace the value of the first entry with the given raw name, or append
a new entry. -/
def upsert : List (List Char × List Char) → List Char → List Char → List (List Char × List Char)
  | [], rn, rv => [(rn, rv)]
  | p :: rest, rn, rv => if p.1 = rn then (rn, rv) :: rest else p :: upsert rest rn rv

/-- Host jar model in which a write carrying the past expiration deletes
every entry with the written raw name and any other write stores its pair. -/
def hostExpire (jar : List (List Char × List Char)) (s : List Char) :
    List (List Char × List Char) :=
  if isExpireWrite s then jar.filter (fun p => p.1 != (pairOfSet s).1)
  else upsert jar (pairOfSet s).1 (pairOfSet s).2

/-- Host jar model that simply stores the assigned pair. -/
def hostStore (jar : List (List Char × List Char)) (s : List Char) :
    List (List Char × List Char) :=
  upsert jar (pairOfSet s).1 (pairOfSet s).2

/-- One jar entry as it appears in the raw jar string. -/
def pairString (p : List Char × List Char) : List Char := p.1 ++ '=' :: p.2

/-- The raw jar string the host exposes: entries joined by a semicolon and
a space. -/
def joinJar : List (List Char × List Char) → List Char
  | [] => []
  | [p] => pairString p
  | p :: q :: rest => pairString p ++ ';' :: ' ' :: joinJar (q :: rest)

/-- The state of one CookieService instance together with the host jar:
the constructor-supplied default options, the host jar contents, and the
two fields of the single-slot parse cache. -/
structure ServiceState where
  defaults : CookieOptions
  jar : List (List Char × List Char)
  lastCookieString : List Char
  lastCookies : List (List Char × List Char)
  deriving DecidableEq

/-- A freshly constructed service over a given host jar: the cache starts
as an empty string and an empty map, as in the source initializers. -/
def initState (d : CookieOptions) (jar : List (List Char × List Char)) : ServiceState :=
  { defaults := d, jar := jar, lastCookieString := [], lastCookies := [] }

/-- CookieService readCookies: returns the cached map when the raw jar
string is unchanged, otherwise reparses and replaces the single-slot
cache. -/
def readSvc (st : ServiceState) : List (List Char × List Char) × ServiceState :=
  if joinJar st.jar = st.lastCookieString then (st.lastCookies, st)
  else (jarParse (joinJar st.jar),
    { st with lastCookieString := joinJar st.jar, lastCookies := jarParse (joinJar st.jar) })

/-- CookieService get: lookup of one key in the parsed map. -/
def getSvc (st : ServiceState) (key : List Char) : Option (List Char) × ServiceState :=
  ((readSvc st).1.lookup key, (readSvc st).2)

/-- CookieService getAll. -/
def getAllSvc (st : ServiceState) : List (List Char × List Char) × ServiceState :=
  readSvc st

/-- CookieService writeCookie: assign the built cookie string to the jar
resource, interpreted by the given host model. -/
def writeSvcWith (host : List (List Char × List Char) → List Char → List (List Char × List Char))
    (st : ServiceState) (name : List Char) (value : Option (List Char))
    (options : Option CookieOptions) : ServiceState :=
  { st with jar := host st.jar (buildCookieString st.defaults name value options) }

/-- CookieService put under the storing host model. -/
def putStoreSvc (st : ServiceState) (name value : List Char)
    (options : Option CookieOptions) : ServiceState :=
  writeSvcWith hostStore st name (some value) options

/-- CookieService put under the expiring host model. -/
def putSvc (st : ServiceState) (name value : List Char)
    (options : Option CookieOptions) : ServiceState :=
  writeSvcWith hostExpire st name (some value) options

/-- CookieService remove: a write with an absent value. -/
def removeSvc (st : ServiceState) (name : List Char)
    (options : Option CookieOptions) : ServiceState :=
  writeSvcWith hostExpire st name none options

/-- CookieService removeAll: snapshot the current map, then one remove per
snapshot name. -/
def removeAllSvc (st : ServiceState) (options : Option CookieOptions) : ServiceState :=
  ((readSvc st).1.map Prod.fst).foldl (fun s k => removeSvc s k options) (readSvc st).2

/-- Modelled from the spec: safeJsonParse from the utils module (not among
the provided sources) wraps the host JSON parse in a try/catch — the
parsed value on success, the raw input string on failure. The host JSON
parse itself is a parameter of the model. -/
def safeJsonParse {J : Type} (parse : List Char → Option J) (s : List Char) : J ⊕ List Char :=
  match parse s with
  | some j => Sum.inl j
  | none => Sum.inr s

/-- CookieService getObject: reads the raw value and applies the tolerant
parse unless the value is falsy (absent or the empty string), in which case
the value is returned unchanged. -/
def getObjectSvc {J : Type} (parse : List Char → Option J) (st : ServiceState)
    (key : List Char) : Option (J ⊕ List Char) × ServiceState :=
  match (getSvc st key).1 with
  | none => (none, (getSvc st key).2)
  | some v =>
    if v.isEmpty then (some (Sum.inr v), (getSvc st key).2)
    else (some (safeJsonParse parse v), (getSvc st key).2)

/-! ### Plumbing lemmas about the encoder output and the parser -/

theorem encodeURIComponent_nil : encodeURIComponent [] = [] := rfl

theorem encodeURIComponent_ne_nil (s : List Char) (h : s ≠ []) :
    encodeURIComponent s ≠ [] := by
  cases s with
  | nil => exact absurd rfl h
  | cons c t =>
    have hlen : 1 ≤ (encodeURIComponent (c :: t)).length := by
      rw [encodeURIComponent]
      simp only [List.length_map, List.map_cons, encodeCP_cons, List.length_append]
      have := encodeCharCP_length_pos c.toNat
      omega
    intro hcontra
    rw [hcontra] at hlen
    simp at hlen

theorem mem_encode_encOut (s : List Char) (c : Char) (hc : c ∈ encodeURIComponent s) :
    c.toNat < 128 ∧ c.toNat ≠ 61 ∧ c.toNat ≠ 59 ∧ c.toNat ≠ 32 := by
  rw [encodeURIComponent] at hc
  obtain ⟨x, hx, rfl⟩ := List.mem_map.mp hc
  have hout := encOut_encodeCP (s.map Char.toNat)
    (by intro y hy; obtain ⟨d, _, rfl⟩ := List.mem_map.mp hy; exact d.valid) x hx
  rw [char_toNat_ofNat x (Or.inl (by have := hout.1; omega))]
  exact ⟨hout.1, hout.2.1, hout.2.2.1, hout.2.2.2⟩

theorem encode_no_eq (s : List Char) : ∀ c ∈ encodeURIComponent s, c ≠ '=' := by
  intro c hc he
  have := (mem_encode_encOut s c hc).2.1
  rw [he] at this
  exact this rfl

theorem encode_no_semi (s : List Char) : ∀ c ∈ encodeURIComponent s, c ≠ ';' := by
  intro c hc he
  have := (mem_encode_encOut s c hc).2.2.1
  rw [he] at this
  exact this rfl

theorem encode_no_space (s : List Char) : ∀ c ∈ encodeURIComponent s, c ≠ ' ' := by
  intro c hc he
  have := (mem_encode_encOut s c hc).2.2.2
  rw [he] at this
  exact this rfl

theorem takeWhile_semi_all (a : List Char) (h : ∀ c ∈ a, c ≠ ';') :
    a.takeWhile (fun c => c != ';') = a := by
  induction a with
  | nil => rfl
  | cons c t ih =>
    have hc : (c != ';') = true := by
      simp only [bne_iff_ne, ne_eq]
      exact h c (by simp)
    simp only [List.takeWhile, hc]
    rw [ih (fun x hx => h x (by simp [hx]))]

theorem takeWhile_semi_append (a t : List Char) (h : ∀ c ∈ a, c ≠ ';') :
    (a ++ ';' :: t).takeWhile (fun c => c != ';') = a := by
  induction a with
  | nil =>
    simp only [List.nil_append, List.takeWhile]
    rfl
  | cons c a ih =>
    have hc : (c != ';') = true := by
      simp only [bne_iff_ne, ne_eq]
      exact h c (by simp)
    simp only [List.cons_append, List.takeWhile, hc, List.append_eq]
    rw [ih (fun x hx => h x (by simp [hx]))]

theorem dropWhile_semi_append (a t : List Char) (h : ∀ c ∈ a, c ≠ ';') :
    (a ++ ';' :: t).dropWhile (fun c => c != ';') = ';' :: t := by
  induction a with
  | nil =>
    simp only [List.nil_append, List.dropWhile]
    rfl
  | cons c a ih =>
    have hc : (c != ';') = true := by
      simp only [bne_iff_ne, ne_eq]
      exact h c (by simp)
    simp only [List.cons_append, List.dropWhile, hc, List.append_eq]
    exact ih (fun x hx => h x (by simp [hx]))

theorem firstEq_append_eq (a b : List Char) (h : ∀ c ∈ a, c ≠ '=') :
    firstEq (a ++ '=' :: b) = some a.length := by
  induction a with
  | nil =>
    simp [firstEq]
  | cons c a ih =>
    have hc : c ≠ '=' := h c (by simp)
    simp only [List.cons_append, firstEq, if_neg hc, List.append_eq]
    rw [ih (fun x hx => h x (by simp [hx]))]
    simp

theorem firstEq_none (s : List Char) (h : ∀ c ∈ s, c ≠ '=') : firstEq s = none := by
  induction s with
  | nil => rfl
  | cons c t ih =>
    simp only [firstEq, if_neg (h c (by simp))]
    rw [ih (fun x hx => h x (by simp [hx]))]
    rfl

theorem parseSeg_pair (n v : List Char) (hn : n ≠ []) (h : ∀ c ∈ n, c ≠ '=') :
    parseSeg (n ++ '=' :: v) = some (safeDecodeURIComponent n, safeDecodeURIComponent v) := by
  rw [parseSeg, firstEq_append_eq n v h]
  cases n with
  | nil => exact absurd rfl hn
  | cons c t =>
    have htake : ((c :: t) ++ '=' :: v).take (t.length + 1) = c :: t := by
      have := List.take_left (c :: t) ('=' :: v)
      simp only [List.length_cons] at this
      exact this
    have hdrop : ((c :: t) ++ '=' :: v).drop (t.length + 2) = v := by
      have hassoc : (c :: t) ++ '=' :: v = ((c :: t) ++ ['=']) ++ v := by simp
      have hlen : ((c :: t) ++ ['=']).length = t.length + 2 := by simp
      rw [hassoc, ← hlen]
      exact List.drop_left ((c :: t) ++ ['=']) v
    simp only [List.length_cons]
    rw [htake, hdrop]

theorem parseSeg_no_eq (s : List Char) (h : ∀ c ∈ s, c ≠ '=') : parseSeg s = none := by
  rw [parseSeg, firstEq_none s h]

theorem parseSeg_nameless (v : List Char) : parseSeg ('=' :: v) = none := by
  rw [parseSeg]
  simp [firstEq]

theorem splitJar_no_semi (s : List Char) (h : ∀ c ∈ s, c ≠ ';') : splitJar s = [s] := by
  induction s with
  | nil => rfl
  | cons c t ih =>
    cases t with
    | nil => rfl
    | cons d r =>
      rw [splitJar, if_neg (by intro hx; exact h c (by simp) hx.1)]
      rw [ih (fun x hx => h x (by simp [hx]))]

theorem splitJar_append_sep (a t : List Char) (h : ∀ c ∈ a, c ≠ ';') :
    splitJar (a ++ ';' :: ' ' :: t) = a :: splitJar t := by
  induction a with
  | nil =>
    rw [List.nil_append, splitJar, if_pos ⟨rfl, rfl⟩]
  | cons c a ih =>
    cases a with
    | nil =>
      rw [List.nil_append] at ih
      simp only [List.cons_append, List.nil_append]
      rw [splitJar, if_neg (by intro hx; exact h c (by simp) hx.1),
        ih (by intro x hx; simp at hx)]
    | cons a1 a2 =>
      simp only [List.cons_append]
      rw [splitJar, if_neg (by intro hx; exact h c (by simp) hx.1)]
      have ih2 := ih (fun x hx => h x (by simp [List.mem_cons] at hx ⊢; tauto))
      simp only [List.cons_append] at ih2
      rw [ih2]

theorem splitSemi_no_semi (s : List Char) (h : ∀ c ∈ s, c ≠ ';') : splitSemi s = [s] := by
  induction s with
  | nil => rfl
  | cons c t ih =>
    rw [splitSemi, if_neg (h c (by simp))]
    rw [ih (fun x hx => h x (by simp [hx]))]

theorem splitSemi_append_sep (a t : List Char) (h : ∀ c ∈ a, c ≠ ';') :
    splitSemi (a ++ ';' :: t) = a :: splitSemi t := by
  induction a with
  | nil =>
    rw [List.nil_append, splitSemi, if_pos rfl]
  | cons c a ih =>
    simp only [List.cons_append]
    rw [splitSemi, if_neg (h c (by simp))]
    rw [ih (fun x hx => h x (by simp [hx]))]

theorem splitSemi_ne_nil (s : List Char) : splitSemi s ≠ [] := by
  cases s with
  | nil => simp [splitSemi]
  | cons c t =>
    rw [splitSemi]
    by_cases hc : c = ';'
    · rw [if_pos hc]
      simp
    · rw [if_neg hc]
      cases hsp : splitSemi t with
      | nil => simp
      | cons s ss => simp

theorem mem_tail_splitSemi (pre e post : List Char) (he : ∀ c ∈ e, c ≠ ';')
    (hpost : post = [] ∨ ∃ u, post = ';' :: u) :
    ∃ s ss, splitSemi (pre ++ ';' :: (e ++ post)) = s :: ss ∧ e ∈ ss := by
  induction pre with
  | nil =>
    rw [List.nil_append, splitSemi, if_pos rfl]
    rcases hpost with h0 | ⟨u, hu⟩
    · rw [h0, List.append_nil, splitSemi_no_semi e he]
      exact ⟨[], [e], rfl, by simp⟩
    · rw [hu, splitSemi_append_sep e u he]
      exact ⟨[], e :: splitSemi u, rfl, by simp⟩
  | cons c pre ih =>
    obtain ⟨s, ss, hsp, hmem⟩ := ih
    simp only [List.cons_append]
    rw [splitSemi]
    by_cases hc : c = ';'
    · rw [if_pos hc, hsp]
      exact ⟨[], s :: ss, rfl, by simp [hmem]⟩
    · rw [if_neg hc, hsp]
      exact ⟨c :: s, ss, rfl, hmem⟩

theorem pairString_ne_nil (p : List Char × List Char) : pairString p ≠ [] := by
  rw [pairString]
  cases h : p.1 <;> simp

theorem splitJar_joinJar (jar : List (List Char × List Char)) (hne : jar ≠ [])
    (h : ∀ p ∈ jar, ∀ c ∈ pairString p, c ≠ ';') :
    splitJar (joinJar jar) = jar.map pairString := by
  induction jar with
  | nil => exact absurd rfl hne
  | cons p rest ih =>
    cases rest with
    | nil =>
      rw [joinJar, List.map_cons, List.map_nil]
      exact splitJar_no_semi (pairString p) (h p (by simp))
    | cons q rest2 =>
      rw [joinJar, splitJar_append_sep (pairString p) (joinJar (q :: rest2)) (h p (by simp))]
      rw [ih (by simp) (fun x hx => h x (by simp [List.mem_cons] at hx ⊢; tauto))]
      simp

theorem lookup_append_pairs (m1 m2 : List (List Char × List Char)) (k : List Char) :
    (m1 ++ m2).lookup k =
      match m1.lookup k with
      | some v => some v
      | none => m2.lookup k := by
  induction m1 with
  | nil => simp [List.lookup]
  | cons p m1 ih =>
    simp only [List.cons_append, List.lookup]
    by_cases hk : (k == p.1) = true
    · simp [hk]
    · simp only [Bool.not_eq_true] at hk
      simp [hk, ih]

theorem lookup_singleton (k k' v : List Char) :
    List.lookup k [(k', v)] = if k == k' then some v else none := by
  simp only [List.lookup]
  by_cases hk : (k == k') = true
  · simp [hk]
  · simp only [Bool.not_eq_true] at hk
    simp [hk]

theorem lookup_eq_none_iff (m : List (List Char × List Char)) (k : List Char) :
    m.lookup k = none ↔ k ∉ m.map Prod.fst := by
  induction m with
  | nil => simp [List.lookup]
  | cons p m ih =>
    simp only [List.lookup, List.map_cons, List.mem_cons]
    by_cases hk : (k == p.1) = true
    · have : k = p.1 := by simpa using hk
      simp [hk, this]
    · simp only [Bool.not_eq_true] at hk
      have : ¬(k = p.1) := by
        intro he
        rw [he] at hk
        simp at hk
      simp [hk, ih, this]

/-- The first parsed occurrence of a name among the split segments (the
shape the spec predicts for duplicate handling). -/
def firstHit (segs : List (List Char)) (k : List Char) : Option (List Char) :=
  ((segs.filterMap parseSeg).find? (fun p => k == p.1)).map Prod.snd

theorem readGo_lookup (segs : List (List Char)) :
    ∀ m k, (readGo segs m).lookup k =
      match m.lookup k with
      | some v => some v
      | none => firstHit segs k := by
  induction segs with
  | nil =>
    intro m k
    cases h : m.lookup k <;> simp [readGo, h, firstHit]
  | cons s segs ih =>
    intro m k
    cases hp : parseSeg s with
    | none =>
      rw [readGo, hp, ih]
      simp [firstHit, List.filterMap_cons, hp]
    | some kv =>
      obtain ⟨k', v'⟩ := kv
      rw [readGo, hp, ih]
      have hfh : firstHit (s :: segs) k =
          if k == k' then some v' else firstHit segs k := by
        simp only [firstHit, List.filterMap_cons, hp, List.find?]
        by_cases hk : (k == k') = true
        · simp [hk]
        · simp only [Bool.not_eq_true] at hk
          simp [hk]
      rw [hfh]
      simp only [insertAbsent]
      by_cases hin : (m.lookup k').isSome = true
      · rw [if_pos hin]
        cases hmk : m.lookup k with
        | some v => simp
        | none =>
          have hkk : ¬(k == k') = true := by
            intro hb
            have : k = k' := by simpa using hb
            rw [this] at hmk
            rw [hmk] at hin
            simp at hin
          simp only [Bool.not_eq_true] at hkk
          simp [hkk]
      · rw [if_neg hin]
        rw [lookup_append_pairs, lookup_singleton]
        cases hmk : m.lookup k with
        | some v => simp
        | none =>
          by_cases hkk : (k == k') = true
          · simp [hkk]
          · simp only [Bool.not_eq_true] at hkk
            simp [hkk]

theorem readGo_nodup (segs : List (List Char)) :
    ∀ m, ((m.map Prod.fst).Nodup) → (((readGo segs m).map Prod.fst).Nodup) := by
  induction segs with
  | nil => intro m h; exact h
  | cons s segs ih =>
    intro m h
    cases hp : parseSeg s with
    | none =>
      rw [readGo, hp]
      exact ih m h
    | some kv =>
      obtain ⟨k', v'⟩ := kv
      rw [readGo, hp]
      simp only [insertAbsent]
      by_cases hin : (m.lookup k').isSome = true
      · rw [if_pos hin]
        exact ih m h
      · rw [if_neg hin]
        refine ih (m ++ [(k', v')]) ?_
        have hnotin : k' ∉ m.map Prod.fst := by
          rw [← lookup_eq_none_iff]
          cases hml : m.lookup k' with
          | none => rfl
          | some v =>
            rw [hml] at hin
            simp at hin
        simp only [List.map_append, List.map_cons, List.map_nil]
        rw [List.nodup_append]
        refine ⟨h, by simp, ?_⟩
        intro a ha hb
        simp only [List.mem_cons, List.not_mem_nil, or_false] at hb
        rw [hb] at ha
        exact hnotin ha

theorem readGo_skip (s : List Char) (hs : parseSeg s = none) :
    ∀ pre post m, readGo (pre ++ s :: post) m = readGo (pre ++ post) m := by
  intro pre
  induction pre with
  | nil =>
    intro post m
    rw [List.nil_append, List.nil_append, readGo, hs]
  | cons p pre ih =>
    intro post m
    simp only [List.cons_append]
    cases hp : parseSeg p with
    | none => rw [readGo, hp, readGo, hp, ih]
    | some kv =>
      obtain ⟨k', v'⟩ := kv
      rw [readGo, hp, readGo, hp]
      exact ih post (insertAbsent m k' v')

/-! ### Shape lemmas about the built cookie string -/

/-- A string that is empty or starts with a semicolon (every attribute
segment does). -/
def semiHeaded (l : List Char) : Prop := l = [] ∨ ∃ t, l = ';' :: t

theorem semiHeaded_append (a b : List Char) (ha : semiHeaded a) (hb : semiHeaded b) :
    semiHeaded (a ++ b) := by
  rcases ha with h0 | ⟨t, ht⟩
  · rw [h0, List.nil_append]
    exact hb
  · exact Or.inr ⟨t ++ b, by rw [ht]; rfl⟩

theorem semiHeaded_pathSeg (opts : CookieOptions) : semiHeaded (pathSeg opts) := by
  rw [pathSeg]
  by_cases h : truthyS opts.path = true
  · rw [if_pos h]
    exact Or.inr ⟨"path=".data ++ opts.path.getD [], rfl⟩
  · rw [if_neg h]
    exact Or.inl rfl

theorem semiHeaded_expiresSeg (e : Option (List Char)) : semiHeaded (expiresSeg e) := by
  cases e with
  | none => exact Or.inl rfl
  | some x => exact Or.inr ⟨"expires=".data ++ dateToUTCString x, rfl⟩

theorem semiHeaded_domainSeg (opts : CookieOptions) : semiHeaded (domainSeg opts) := by
  rw [domainSeg]
  by_cases h : truthyS opts.domain = true
  · rw [if_pos h]
    exact Or.inr ⟨"domain=".data ++ opts.domain.getD [], rfl⟩
  · rw [if_neg h]
    exact Or.inl rfl

theorem semiHeaded_secureSeg (opts : CookieOptions) : semiHeaded (secureSeg opts) := by
  rw [secureSeg]
  by_cases h : truthyB opts.secure = true
  · rw [if_pos h]
    exact Or.inr ⟨"secure".data, rfl⟩
  · rw [if_neg h]
    exact Or.inl rfl

theorem semiHeaded_httpOnlySeg (opts : CookieOptions) : semiHeaded (httpOnlySeg opts) := by
  rw [httpOnlySeg]
  by_cases h : truthyB opts.httpOnly = true
  · rw [if_pos h]
    exact Or.inr ⟨"HttpOnly".data, rfl⟩
  · rw [if_neg h]
    exact Or.inl rfl

theorem semiHeaded_sameSiteSeg (opts : CookieOptions) : semiHeaded (sameSiteSeg opts) := by
  rw [sameSiteSeg]
  by_cases h : truthyS opts.sameSite = true
  · rw [if_pos h]
    exact Or.inr ⟨"sameSite=".data ++ opts.sameSite.getD [], rfl⟩
  · rw [if_neg h]
    exact Or.inl rfl

theorem pair_take_drop (n v : List Char) :
    (n ++ '=' :: v).take n.length = n ∧ (n ++ '=' :: v).drop (n.length + 1) = v := by
  constructor
  · have h := List.take_left n ('=' :: v)
    exact h
  · have hassoc : n ++ '=' :: v = (n ++ ['=']) ++ v := by simp
    have hlen : (n ++ ['=']).length = n.length + 1 := by simp
    rw [hassoc, ← hlen]
    exact List.drop_left (n ++ ['=']) v

theorem pairOfSet_shape (n v E : List Char) (hn : ∀ c ∈ n, c ≠ ';')
    (hneq : ∀ c ∈ n, c ≠ '=') (hv : ∀ c ∈ v, c ≠ ';') (hE : semiHeaded E) :
    pairOfSet (n ++ '=' :: (v ++ E)) = (n, v) := by
  have hpairfree : ∀ c ∈ n ++ '=' :: v, c ≠ ';' := by
    intro c hc
    rcases List.mem_append.mp hc with h | h
    · exact hn c h
    · rcases List.mem_cons.mp h with h | h
      · rw [h]
        intro hcon
        exact absurd hcon (by decide)
      · exact hv c h
  have htw : (n ++ '=' :: (v ++ E)).takeWhile (fun c => c != ';') = n ++ '=' :: v := by
    rcases hE with h0 | ⟨t, ht⟩
    · rw [h0, List.append_nil]
      exact takeWhile_semi_all (n ++ '=' :: v) hpairfree
    · rw [ht]
      have hshape : n ++ '=' :: (v ++ ';' :: t) = (n ++ '=' :: v) ++ ';' :: t := by simp
      rw [hshape]
      exact takeWhile_semi_append (n ++ '=' :: v) t hpairfree
  rw [pairOfSet, htw, firstEq_append_eq n v hneq]
  show ((n ++ '=' :: v).take n.length, (n ++ '=' :: v).drop (n.length + 1)) = (n, v)
  rw [(pair_take_drop n v).1, (pair_take_drop n v).2]

/-- The trailing attribute segments after expires. -/
def restSegs (m : CookieOptions) : List Char :=
  domainSeg m ++ (secureSeg m ++ (httpOnlySeg m ++ sameSiteSeg m))

theorem semiHeaded_restSegs (m : CookieOptions) : semiHeaded (restSegs m) :=
  semiHeaded_append _ _ (semiHeaded_domainSeg m)
    (semiHeaded_append _ _ (semiHeaded_secureSeg m)
      (semiHeaded_append _ _ (semiHeaded_httpOnlySeg m) (semiHeaded_sameSiteSeg m)))

theorem epochAttr_no_semi : ∀ c ∈ epochAttr, c ≠ ';' := by decide

theorem expiresSeg_epoch : expiresSeg (some epochDate) = ';' :: epochAttr := by decide

theorem build_blank (d : CookieOptions) (o : Option CookieOptions) (n : List Char)
    (value : Option (List Char)) (hb : isBlank value = true) :
    buildCookieString d n value o =
      encodeURIComponent n ++ '=' ::
        (pathSeg (mergeOptions d o) ++ (';' :: (epochAttr ++ restSegs (mergeOptions d o)))) := by
  have hev : expiresSeg (some epochDate) = ';' :: epochAttr := expiresSeg_epoch
  simp only [buildCookieString, buildCookieStringPair, hb, if_true, restSegs, hev,
    encodeURIComponent_nil, ite_self, List.append_assoc, List.cons_append, List.nil_append]

theorem build_eq_spec (d : CookieOptions) (o : Option CookieOptions) (n : List Char)
    (value : Option (List Char)) (hb : isBlank value = false) :
    buildCookieString d n value o = specCookieString (mergeOptions d o) n (value.getD []) := by
  simp only [buildCookieString, buildCookieStringPair, specCookieString, hb,
    Bool.false_eq_true, if_false, pathSeg, expiresSeg, domainSeg, secureSeg, httpOnlySeg,
    sameSiteSeg, List.append_assoc, List.cons_append, List.nil_append]

theorem build_empty (n value : List Char) :
    ∃ E, buildCookieString {} n (some value) none =
      encodeURIComponent n ++ '=' :: (encodeURIComponent value ++ E) ∧ semiHeaded E := by
  by_cases hv : value = []
  · refine ⟨';' :: (epochAttr ++ restSegs (mergeOptions {} none)), ?_, Or.inr ⟨_, rfl⟩⟩
    rw [build_blank {} none n (some value) (by rw [hv]; rfl)]
    rw [hv]
    rfl
  · have hb : isBlank (some value) = false := by
      cases value with
      | nil => exact absurd rfl hv
      | cons c t => rfl
    rw [build_eq_spec {} none n (some value) hb]
    refine ⟨[], ?_, Or.inl rfl⟩
    have hm : mergeOptions ({} : CookieOptions) none = {} := rfl
    rw [hm]
    simp [specCookieString, truthyS, truthyB]

theorem pairOfSet_build_blank (d : CookieOptions) (o : Option CookieOptions) (n : List Char)
    (value : Option (List Char)) (hb : isBlank value = true) :
    pairOfSet (buildCookieString d n value o) = (encodeURIComponent n, []) := by
  rw [build_blank d o n value hb]
  have hE : semiHeaded (pathSeg (mergeOptions d o) ++
      (';' :: (epochAttr ++ restSegs (mergeOptions d o)))) :=
    semiHeaded_append _ _ (semiHeaded_pathSeg _) (Or.inr ⟨_, rfl⟩)
  have := pairOfSet_shape (encodeURIComponent n) []
    (pathSeg (mergeOptions d o) ++ (';' :: (epochAttr ++ restSegs (mergeOptions d o))))
    (encode_no_semi n) (encode_no_eq n) (by intro c hc; simp at hc) hE
  rw [List.nil_append] at this
  exact this

theorem isExpireWrite_build_blank (d : CookieOptions) (o : Option CookieOptions)
    (n : List Char) (value : Option (List Char)) (hb : isBlank value = true) :
    isExpireWrite (buildCookieString d n value o) = true := by
  rw [build_blank d o n value hb]
  have hA : ∀ c ∈ encodeURIComponent n ++ ['='], c ≠ ';' := by
    intro c hc
    rcases List.mem_append.mp hc with h | h
    · exact encode_no_semi n c h
    · simp only [List.mem_cons, List.not_mem_nil, or_false] at h
      rw [h]
      decide
  rcases semiHeaded_pathSeg (mergeOptions d o) with hP | ⟨p, hP⟩
  · have hshape : encodeURIComponent n ++ '=' ::
        (pathSeg (mergeOptions d o) ++ (';' :: (epochAttr ++ restSegs (mergeOptions d o)))) =
        (encodeURIComponent n ++ ['=']) ++ ';' :: (epochAttr ++ restSegs (mergeOptions d o)) := by
      rw [hP]
      simp
    rw [hshape, isExpireWrite, dropWhile_semi_append _ _ hA]
    rw [splitSemi, if_pos rfl]
    rcases semiHeaded_restSegs (mergeOptions d o) with hR | ⟨u, hR⟩
    · rw [hR, List.append_nil, splitSemi_no_semi epochAttr epochAttr_no_semi]
      exact List.elem_eq_true_of_mem (by simp)
    · rw [hR, splitSemi_append_sep epochAttr u epochAttr_no_semi]
      exact List.elem_eq_true_of_mem (by simp)
  · have hshape : encodeURIComponent n ++ '=' ::
        (pathSeg (mergeOptions d o) ++ (';' :: (epochAttr ++ restSegs (mergeOptions d o)))) =
        (encodeURIComponent n ++ ['=']) ++ ';' ::
          (p ++ (';' :: (epochAttr ++ restSegs (mergeOptions d o)))) := by
      rw [hP]
      simp
    rw [hshape, isExpireWrite, dropWhile_semi_append _ _ hA]
    rw [splitSemi, if_pos rfl]
    obtain ⟨s, ss, hsp, hmem⟩ := mem_tail_splitSemi p epochAttr
      (restSegs (mergeOptions d o)) epochAttr_no_semi (semiHeaded_restSegs (mergeOptions d o))
    rw [hsp]
    exact List.elem_eq_true_of_mem (by simp [List.mem_cons]; tauto)

theorem hostExpire_build_blank (jar : List (List Char × List Char)) (d : CookieOptions)
    (o : Option CookieOptions) (n : List Char) (value : Option (List Char))
    (hb : isBlank value = true) :
    hostExpire jar (buildCookieString d n value o) =
      jar.filter (fun p => p.1 != encodeURIComponent n) := by
  rw [hostExpire, if_pos (isExpireWrite_build_blank d o n value hb),
    pairOfSet_build_blank d o n value hb]

/-! ### Service-level lemmas -/

/-- The single-slot cache agrees with what parsing its stored raw string
would produce. -/
def Coherent (st : ServiceState) : Prop :=
  st.lastCookies = jarParse st.lastCookieString

theorem coherent_init (d : CookieOptions) (jar : List (List Char × List Char)) :
    Coherent (initState d jar) := rfl

theorem readSvc_fst (st : ServiceState) (h : Coherent st) :
    (readSvc st).1 = jarParse (joinJar st.jar) := by
  rw [readSvc]
  by_cases hc : joinJar st.jar = st.lastCookieString
  · rw [if_pos hc]
    show st.lastCookies = _
    rw [h, hc]
  · rw [if_neg hc]

theorem readSvc_snd_fields (st : ServiceState) :
    (readSvc st).2.jar = st.jar ∧ (readSvc st).2.defaults = st.defaults := by
  rw [readSvc]
  by_cases hc : joinJar st.jar = st.lastCookieString
  · rw [if_pos hc]
    exact ⟨rfl, rfl⟩
  · rw [if_neg hc]
    exact ⟨rfl, rfl⟩

theorem readSvc_snd_coherent (st : ServiceState) (h : Coherent st) :
    Coherent (readSvc st).2 := by
  rw [readSvc]
  by_cases hc : joinJar st.jar = st.lastCookieString
  · rw [if_pos hc]
    exact h
  · rw [if_neg hc]
    exact rfl

theorem removeSvc_eq_filter (st : ServiceState) (n : List Char) (o : Option CookieOptions) :
    removeSvc st n o =
      { st with jar := st.jar.filter (fun p => p.1 != encodeURIComponent n) } := by
  rw [removeSvc, writeSvcWith, hostExpire_build_blank st.jar st.defaults o n none rfl]

theorem foldl_remove_fields (ks : List (List Char)) (o : Option CookieOptions) :
    ∀ st : ServiceState,
      (ks.foldl (fun s k => removeSvc s k o) st).defaults = st.defaults ∧
      (ks.foldl (fun s k => removeSvc s k o) st).lastCookieString = st.lastCookieString ∧
      (ks.foldl (fun s k => removeSvc s k o) st).lastCookies = st.lastCookies ∧
      ∀ p, p ∈ (ks.foldl (fun s k => removeSvc s k o) st).jar ↔
        (p ∈ st.jar ∧ ∀ k ∈ ks, p.1 ≠ encodeURIComponent k) := by
  induction ks with
  | nil =>
    intro st
    exact ⟨rfl, rfl, rfl, fun p => by simp⟩
  | cons k ks ih =>
    intro st
    rw [List.foldl_cons, removeSvc_eq_filter]
    obtain ⟨h1, h2, h3, h4⟩ :=
      ih { st with jar := st.jar.filter (fun p => p.1 != encodeURIComponent k) }
    refine ⟨h1, h2, h3, fun p => ?_⟩
    rw [h4 p]
    simp only [List.mem_filter, bne_iff_ne, ne_eq, List.mem_cons]
    constructor
    · rintro ⟨⟨hmem, hk⟩, hks⟩
      refine ⟨hmem, fun k' hk' => ?_⟩
      rcases hk' with h | h
      · rw [h]
        exact hk
      · exact hks k' h
    · rintro ⟨hmem, hall⟩
      exact ⟨⟨hmem, hall k (Or.inl rfl)⟩, fun k' h => hall k' (Or.inr h)⟩

theorem readGo_all_none (segs : List (List Char)) (h : ∀ s ∈ segs, parseSeg s = none) :
    ∀ m, readGo segs m = m := by
  induction segs with
  | nil => intro m; rfl
  | cons s segs ih =>
    intro m
    rw [readGo, h s (by simp)]
    exact ih (fun x hx => h x (by simp [hx])) m

theorem jarParse_nameless (jar : List (List Char × List Char))
    (h : ∀ p ∈ jar, p.1 = []) (hv : ∀ p ∈ jar, ∀ c ∈ p.2, c ≠ ';') :
    jarParse (joinJar jar) = [] := by
  cases hj : jar with
  | nil => rfl
  | cons q rest =>
    rw [← hj]
    have hfree : ∀ p ∈ jar, ∀ c ∈ pairString p, c ≠ ';' := by
      intro p hp c hc
      rw [pairString, h p hp, List.nil_append] at hc
      rcases List.mem_cons.mp hc with h0 | h0
      · rw [h0]
        decide
      · exact hv p hp c h0
    rw [jarParse, splitJar_joinJar jar (by rw [hj]; simp) hfree]
    refine readGo_all_none _ ?_ []
    intro s hs
    obtain ⟨p, hp, rfl⟩ := List.mem_map.mp hs
    rw [pairString, h p hp, List.nil_append]
    exact parseSeg_nameless p.2

theorem jarParse_key_mem (segs : List (List Char)) (s : List Char)
    (k v : List Char) (hp : parseSeg s = some (k, v)) (hs : s ∈ segs) :
    k ∈ (readGo segs []).map Prod.fst := by
  by_contra hnot
  have hnone : (readGo segs []).lookup k = none := (lookup_eq_none_iff _ k).mpr hnot
  rw [readGo_lookup] at hnone
  have hfh : firstHit segs k = none := hnone
  rw [firstHit] at hfh
  have hfind : ((segs.filterMap parseSeg).find? (fun p => k == p.1)) = none := by
    cases hq : (segs.filterMap parseSeg).find? (fun p => k == p.1) with
    | none => rfl
    | some q =>
      rw [hq] at hfh
      simp at hfh
  rw [List.find?_eq_none] at hfind
  have hmem : (k, v) ∈ segs.filterMap parseSeg :=
    List.mem_filterMap.mpr ⟨s, hs, hp⟩
  have := hfind (k, v) hmem
  simp at this

theorem readGo_keys_from (segs : List (List Char)) :
    ∀ m, ∀ k ∈ (readGo segs m).map Prod.fst,
      k ∈ m.map Prod.fst ∨ ∃ s ∈ segs, ∃ v, parseSeg s = some (k, v) := by
  induction segs with
  | nil => intro m k hk; exact Or.inl hk
  | cons s segs ih =>
    intro m k hk
    cases hp : parseSeg s with
    | none =>
      rw [readGo, hp] at hk
      rcases ih m k hk with h | ⟨s', hs', v, hv⟩
      · exact Or.inl h
      · exact Or.inr ⟨s', by simp [hs'], v, hv⟩
    | some kv =>
      obtain ⟨k', v'⟩ := kv
      rw [readGo, hp] at hk
      rcases ih (insertAbsent m k' v') k hk with h | ⟨s', hs', v, hv⟩
      · rw [insertAbsent] at h
        by_cases hin : (m.lookup k').isSome = true
        · rw [if_pos hin] at h
          exact Or.inl h
        · rw [if_neg hin] at h
          simp only [List.map_append, List.map_cons, List.map_nil, List.mem_append,
            List.mem_cons, List.not_mem_nil, or_false] at h
          rcases h with h | h
          · exact Or.inl h
          · exact Or.inr ⟨s, by simp, v', by rw [hp, h]⟩
      · exact Or.inr ⟨s', by simp [hs'], v, hv⟩

/-! ### Claim theorems -/

/-- C3: calling readCookies (getAll) twice with no intervening change to the
raw jar string returns, on the second call, exactly the stored cache (the
map produced by the first call) and leaves the state untouched — the second
call takes the cache-hit branch and performs no reparsing. -/
theorem C3_getAll_cache_hit (st : ServiceState) :
    readSvc (readSvc st).2 = readSvc st ∧
    (readSvc st).2.lastCookies = (readSvc st).1 := by
  by_cases hc : joinJar st.jar = st.lastCookieString
  · constructor
    · simp [readSvc, hc]
    · simp [readSvc, hc]
  · constructor
    · simp [readSvc, hc]
    · simp [readSvc, hc]

/-- C10: a jar segment without an equals sign, or with a nameless leading
equals sign, contributes no entry to the parsed map wherever it occurs, and
the empty jar string parses to the empty map. -/
theorem C10_nameless_segments (s : List Char)
    (hs : '=' ∉ s ∨ firstEq s = some 0) :
    (∀ (pre post : List (List Char)) (m : List (List Char × List Char)),
      readGo (pre ++ s :: post) m = readGo (pre ++ post) m) ∧
    jarParse [] = [] := by
  refine ⟨fun pre post m => ?_, rfl⟩
  apply readGo_skip
  rcases hs with h | h
  · exact parseSeg_no_eq s (fun c hc he => h (he ▸ hc))
  · rw [parseSeg, h]

/-- C9: the options used to build the cookie string are the shallow
key-by-key merge of the constructor defaults with the per-call options:
a key present in the per-call record takes its per-call value, an unset
key retains the default, and building with the per-call record equals
building with the merged record as defaults. -/
theorem mergeField_keeps {α : Type} (d o : Option α) (h : o.isSome = true) :
    mergeField d o = o := by
  cases o with
  | none => simp at h
  | some v => rfl

theorem C9_shallow_merge (d o : CookieOptions) :
    ((o.path.isSome = true → (mergeOptions d (some o)).path = o.path) ∧
      (o.path = none → (mergeOptions d (some o)).path = d.path)) ∧
    ((o.domain.isSome = true → (mergeOptions d (some o)).domain = o.domain) ∧
      (o.domain = none → (mergeOptions d (some o)).domain = d.domain)) ∧
    ((o.expires.isSome = true → (mergeOptions d (some o)).expires = o.expires) ∧
      (o.expires = none → (mergeOptions d (some o)).expires = d.expires)) ∧
    ((o.secure.isSome = true → (mergeOptions d (some o)).secure = o.secure) ∧
      (o.secure = none → (mergeOptions d (some o)).secure = d.secure)) ∧
    ((o.httpOnly.isSome = true → (mergeOptions d (some o)).httpOnly = o.httpOnly) ∧
      (o.httpOnly = none → (mergeOptions d (some o)).httpOnly = d.httpOnly)) ∧
    ((o.sameSite.isSome = true → (mergeOptions d (some o)).sameSite = o.sameSite) ∧
      (o.sameSite = none → (mergeOptions d (some o)).sameSite = d.sameSite)) ∧
    ((o.storeUnencoded.isSome = true →
        (mergeOptions d (some o)).storeUnencoded = o.storeUnencoded) ∧
      (o.storeUnencoded = none → (mergeOptions d (some o)).storeUnencoded = d.storeUnencoded)) ∧
    (∀ (n : List Char) (value : Option (List Char)),
      buildCookieStringPair d n value (some o) =
        buildCookieStringPair (mergeOptions d (some o)) n value none) := by
  refine ⟨⟨fun h => mergeField_keeps d.path o.path h, fun h => by rw [show
      (mergeOptions d (some o)).path = mergeField d.path o.path from rfl, h, mergeField]⟩,
    ⟨fun h => mergeField_keeps d.domain o.domain h, fun h => by rw [show
      (mergeOptions d (some o)).domain = mergeField d.domain o.domain from rfl, h, mergeField]⟩,
    ⟨fun h => mergeField_keeps d.expires o.expires h, fun h => by rw [show
      (mergeOptions d (some o)).expires = mergeField d.expires o.expires from rfl, h, mergeField]⟩,
    ⟨fun h => mergeField_keeps d.secure o.secure h, fun h => by rw [show
      (mergeOptions d (some o)).secure = mergeField d.secure o.secure from rfl, h, mergeField]⟩,
    ⟨fun h => mergeField_keeps d.httpOnly o.httpOnly h, fun h => by rw [show
      (mergeOptions d (some o)).httpOnly = mergeField d.httpOnly o.httpOnly from rfl, h,
      mergeField]⟩,
    ⟨fun h => mergeField_keeps d.sameSite o.sameSite h, fun h => by rw [show
      (mergeOptions d (some o)).sameSite = mergeField d.sameSite o.sameSite from rfl, h,
      mergeField]⟩,
    ⟨fun h => mergeField_keeps d.storeUnencoded o.storeUnencoded h, fun h => by rw [show
      (mergeOptions d (some o)).storeUnencoded = mergeField d.storeUnencoded o.storeUnencoded
      from rfl, h, mergeField]⟩,
    fun n value => rfl⟩

/-- C5: for a non-blank value the serialized cookie string is the encoded
name, an equals sign, the value (percent-encoded unless the raw-storage
flag of the merged options is truthy), then the attribute segments in the
fixed order path, expires, domain, secure, HttpOnly, sameSite, each
prefixed with a semicolon and included only when truthy; in particular
putting hello world under x with default path slash builds
x=hello%20world;path=/. -/
theorem C5_serialized_shape (d : CookieOptions) (o : Option CookieOptions)
    (n : List Char) (value : Option (List Char)) (hb : isBlank value = false) :
    buildCookieString d n value o = specCookieString (mergeOptions d o) n (value.getD []) ∧
    buildCookieString { path := some "/".data } "x".data (some "hello world".data) none =
      "x=hello%20world;path=/".data := by
  refine ⟨build_eq_spec d o n value hb, ?_⟩
  decide

theorem encodeCP_replicate97 (k : Nat) :
    encodeCP (List.replicate k 97) = List.replicate k 97 := by
  induction k with
  | zero => rfl
  | succ k ih =>
    rw [List.replicate_succ, encodeCP_cons, ih]
    rfl

theorem encode_replicate_a (k : Nat) :
    encodeURIComponent (List.replicate k 'a') = List.replicate k 'a' := by
  rw [encodeURIComponent, List.map_replicate]
  rw [show Char.toNat 'a' = 97 from rfl, encodeCP_replicate97, List.map_replicate]

theorem jsLength_append (a b : List Char) : jsLength (a ++ b) = jsLength a + jsLength b := by
  induction a with
  | nil => simp [jsLength]
  | cons c t ih =>
    simp only [List.cons_append, jsLength, List.append_eq, ih]
    omega

theorem jsLength_replicate_a (k : Nat) : jsLength (List.replicate k 'a') = k := by
  induction k with
  | zero => rfl
  | succ k ih =>
    rw [List.replicate_succ, jsLength, ih]
    rw [show ((if ('a'.toNat < 65536) then 1 else 2) : Nat) = 1 from by decide]
    omega

/-- C7: the serializer is total — it always returns the full serialized
string (for a non-blank value, exactly the specified concatenation, with
no truncation in the oversized case) — and the oversize diagnostic is
emitted exactly when the length of the built string plus one exceeds
4096. -/
theorem C7_oversize_diagnostic (d : CookieOptions) (o : Option CookieOptions)
    (n : List Char) (value : Option (List Char)) :
    ((buildCookieStringPair d n value o).2 = true ↔
      4096 < jsLength (buildCookieStringPair d n value o).1 + 1) ∧
    (isBlank value = false →
      (buildCookieStringPair d n value o).1 =
        specCookieString (mergeOptions d o) n (value.getD [])) := by
  constructor
  · have hdef : (buildCookieStringPair d n value o).2 =
        decide (4096 < jsLength (buildCookieStringPair d n value o).1 + 1) := rfl
    rw [hdef]
    exact decide_eq_true_iff
  · exact fun hb => build_eq_spec d o n value hb

/-- C7 witness: a concrete oversized build — the diagnostic fires and the
full string (name, equals sign, 4200 characters of value) is returned. -/
theorem C7_oversize_diagnostic_witness :
    (buildCookieStringPair {} ("n".data) (some (List.replicate 4200 'a')) none).2 = true ∧
    (buildCookieStringPair {} ("n".data) (some (List.replicate 4200 'a')) none).1 =
      "n=".data ++ List.replicate 4200 'a' := by
  have hspec : ∀ k, specCookieString (mergeOptions {} none) ("n".data) (List.replicate k 'a') =
      "n=".data ++ List.replicate k 'a' := by
    intro k
    rw [show mergeOptions ({} : CookieOptions) none = {} from rfl]
    simp only [specCookieString, truthyS, truthyB, encode_replicate_a,
      Bool.false_eq_true, if_false, List.append_nil, List.nil_append]
    rw [show encodeURIComponent ("n".data) = "n".data from rfl]
    rfl
  have hc := C7_oversize_diagnostic {} none ("n".data) (some (List.replicate 4200 'a'))
  have hstr : (buildCookieStringPair {} ("n".data) (some (List.replicate 4200 'a')) none).1 =
      "n=".data ++ List.replicate 4200 'a' := by
    rw [hc.2 rfl]
    rw [show (some (List.replicate 4200 'a')).getD [] = List.replicate 4200 'a' from rfl]
    exact hspec 4200
  refine ⟨hc.1.mpr ?_, hstr⟩
  rw [hstr, jsLength_append, jsLength_replicate_a]
  rw [show jsLength ("n=".data) = 2 from rfl]
  omega

/-- C6: getObject returns the absent value unchanged when the stored value
is absent, returns an empty stored value as the raw empty string without
consulting the JSON parse at all, and degrades to a raw passthrough — never
an uncaught failure — when the parse fails on a malformed value. -/
theorem C6_getObject_tolerant (J : Type) (parse : List Char → Option J)
    (st : ServiceState) (key : List Char) :
    ((getSvc st key).1 = none → (getObjectSvc parse st key).1 = none) ∧
    ((getSvc st key).1 = some [] → (getObjectSvc parse st key).1 = some (Sum.inr [])) ∧
    (∀ v, (getSvc st key).1 = some v → parse v = none →
      (getObjectSvc parse st key).1 = some (Sum.inr v)) := by
  refine ⟨?_, ?_, ?_⟩
  · intro h
    rw [getObjectSvc, h]
  · intro h
    rw [getObjectSvc, h]
    rfl
  · intro v hv hp
    rw [getObjectSvc, hv]
    by_cases he : v.isEmpty = true
    · have hv0 : v = [] := by
        cases v with
        | nil => rfl
        | cons c t => simp at he
      subst hv0
      rfl
    · show (if v.isEmpty = true then _ else (some (safeJsonParse parse v), (getSvc st key).2)).1
        = some (Sum.inr v)
      rw [if_neg he]
      show some (safeJsonParse parse v) = some (Sum.inr v)
      rw [safeJsonParse, hp]

/-- C2: for every raw jar string the parsed map binds each name to the
value of its first parsed occurrence among the split segments (later
duplicates contribute nothing), the names in the result are unique, and in
particular the jar a=1; b=2; a=3 parses to the two-entry map with a bound
to 1 and b bound to 2. -/
theorem C2_first_occurrence_wins (doc : List Char) (k : List Char) :
    (jarParse doc).lookup k = firstHit (splitJar doc) k ∧
    ((jarParse doc).map Prod.fst).Nodup ∧
    jarParse ("a=1; b=2; a=3".data) =
      [("a".data, "1".data), ("b".data, "2".data)] := by
  refine ⟨?_, readGo_nodup _ [] (by simp), by decide⟩
  rw [jarParse, readGo_lookup]
  rfl

theorem jarParse_lookup_none (jar : List (List Char × List Char)) (n : List Char)
    (hwf : ∀ p ∈ jar, p.1 = encodeURIComponent (safeDecodeURIComponent p.1) ∧
      ∀ c ∈ p.2, c ≠ ';')
    (hgone : ∀ p ∈ jar, p.1 ≠ encodeURIComponent n) :
    (jarParse (joinJar jar)).lookup n = none := by
  cases hj : jar with
  | nil => rfl
  | cons q rest =>
    rw [← hj]
    have hfree : ∀ p ∈ jar, ∀ c ∈ pairString p, c ≠ ';' := by
      intro p hp c hc
      rw [pairString] at hc
      rcases List.mem_append.mp hc with h | h
      · rw [(hwf p hp).1] at h
        exact encode_no_semi (safeDecodeURIComponent p.1) c h
      · rcases List.mem_cons.mp h with h0 | h0
        · rw [h0]
          decide
        · exact (hwf p hp).2 c h0
    rw [jarParse, splitJar_joinJar jar (by rw [hj]; simp) hfree]
    rw [lookup_eq_none_iff]
    intro hmem
    rcases readGo_keys_from (jar.map pairString) [] n hmem with h | ⟨s, hs, v, hv⟩
    · simp at h
    · obtain ⟨p, hp, rfl⟩ := List.mem_map.mp hs
      rw [pairString] at hv
      by_cases hp1 : p.1 = []
      · rw [hp1, List.nil_append, parseSeg_nameless] at hv
        exact Option.noConfusion hv
      · have hnoeq : ∀ c ∈ p.1, c ≠ '=' := by
          intro c hc
          rw [(hwf p hp).1] at hc
          exact encode_no_eq (safeDecodeURIComponent p.1) c hc
        rw [parseSeg_pair p.1 p.2 hp1 hnoeq] at hv
        have hn : safeDecodeURIComponent p.1 = n :=
          congrArg Prod.fst (Option.some.inj hv)
        have : p.1 = encodeURIComponent n := by
          rw [← hn]
          exact (hwf p hp).1
        exact hgone p hp this

/-- C4: remove builds a cookie string whose value part is empty and whose
expires attribute is the fixed past timestamp (for every blank or absent
value and regardless of the expiration in the merged options), and under
the expiring host jar model a remove followed by a get of the same name on
a well-formed jar yields the absent value. -/
theorem C4_remove_deletes (d : CookieOptions) (o : Option CookieOptions) (n : List Char)
    (value : Option (List Char)) (jar : List (List Char × List Char))
    (hb : isBlank value = true)
    (hwf : ∀ p ∈ jar, p.1 = encodeURIComponent (safeDecodeURIComponent p.1) ∧
      ∀ c ∈ p.2, c ≠ ';') :
    buildCookieString d n value o =
      encodeURIComponent n ++ '=' ::
        (pathSeg (mergeOptions d o) ++ (';' :: (epochAttr ++ restSegs (mergeOptions d o)))) ∧
    (getSvc (removeSvc (initState d jar) n o) n).1 = none := by
  refine ⟨build_blank d o n value hb, ?_⟩
  have hst : removeSvc (initState d jar) n o =
      initState d (jar.filter (fun p => p.1 != encodeURIComponent n)) := by
    rw [removeSvc_eq_filter]
    rfl
  rw [hst]
  have hget : (getSvc (initState d (jar.filter (fun p => p.1 != encodeURIComponent n))) n).1 =
      (jarParse (joinJar (jar.filter (fun p => p.1 != encodeURIComponent n)))).lookup n := by
    show ((readSvc _).1.lookup n = _)
    rw [readSvc_fst _ (coherent_init d _)]
    rfl
  rw [hget]
  apply jarParse_lookup_none
  · intro p hp
    exact hwf p (List.mem_of_mem_filter hp)
  · intro p hp
    have := (List.mem_filter.mp hp).2
    simpa using this

/-- C1 counterexample: with the empty cookie name, put followed by get does
not return the stored value — the written pair is a nameless jar entry the
reader discards, so get yields the absent value instead. -/
theorem C1_roundtrip_cex :
    (getSvc (putStoreSvc (initState {} []) ([] : List Char) ("v".data) none)
      ([] : List Char)).1 ≠ some ("v".data) := by
  decide

/-- C1 (amended): for every nonempty cookie name and every value string —
semicolons, equals signs, spaces and multi-byte unicode included — putting
the value and reading the name back under the storing host jar model
returns the original value: the reader percent-decoding exactly inverts
the writer percent-encoding. -/
theorem C1_put_get_roundtrip (name value : List Char) (hn : name ≠ []) :
    (getSvc (putStoreSvc (initState {} []) name value none) name).1 = some value := by
  obtain ⟨E, hbuild, hE⟩ := build_empty name value
  have hjar : (putStoreSvc (initState {} []) name value none).jar =
      [(encodeURIComponent name, encodeURIComponent value)] := by
    rw [putStoreSvc, writeSvcWith]
    show upsert [] (pairOfSet (buildCookieString {} name (some value) none)).1
      (pairOfSet (buildCookieString {} name (some value) none)).2 = _
    rw [hbuild, pairOfSet_shape (encodeURIComponent name) (encodeURIComponent value) E
      (encode_no_semi name) (encode_no_eq name) (encode_no_semi value) hE]
    rfl
  have hco : Coherent (putStoreSvc (initState {} []) name value none) := rfl
  have hget : (getSvc (putStoreSvc (initState {} []) name value none) name).1 =
      (jarParse (joinJar ((putStoreSvc (initState {} []) name value none).jar))).lookup name := by
    show ((readSvc _).1.lookup name = _)
    rw [readSvc_fst _ hco]
  rw [hget, hjar]
  have hjoin : joinJar [(encodeURIComponent name, encodeURIComponent value)] =
      encodeURIComponent name ++ '=' :: encodeURIComponent value := rfl
  rw [hjoin]
  have hfree : ∀ c ∈ encodeURIComponent name ++ '=' :: encodeURIComponent value, c ≠ ';' := by
    intro c hc
    rcases List.mem_append.mp hc with h | h
    · exact encode_no_semi name c h
    · rcases List.mem_cons.mp h with h0 | h0
      · rw [h0]
        decide
      · exact encode_no_semi value c h0
  rw [jarParse, splitJar_no_semi _ hfree, readGo,
    parseSeg_pair (encodeURIComponent name) (encodeURIComponent value)
      (encodeURIComponent_ne_nil name hn) (encode_no_eq name),
    safeDecode_encode name, safeDecode_encode value]
  show (insertAbsent [] name value).lookup name = some value
  rw [insertAbsent]
  rw [if_neg (by simp [List.lookup])]
  rw [List.nil_append, lookup_singleton]
  simp

/-- C8: removeAll snapshots the current map and issues one remove per
snapshot name; on a well-formed jar — raw names canonically encoded,
values free of semicolons — every named entry is deleted, so a getAll
right after removeAll returns the empty map, for an initial jar of any
size. -/
theorem C8_removeAll_clears (d : CookieOptions) (jar : List (List Char × List Char))
    (o : Option CookieOptions)
    (hwf : ∀ p ∈ jar, p.1 = encodeURIComponent (safeDecodeURIComponent p.1) ∧
      ∀ c ∈ p.2, c ≠ ';') :
    (getAllSvc (removeAllSvc (initState d jar) o)).1 = [] := by
  have hsnap : (readSvc (initState d jar)).1 = jarParse (joinJar jar) := by
    rw [readSvc_fst _ (coherent_init d jar)]
    rfl
  obtain ⟨hjar0, _⟩ := readSvc_snd_fields (initState d jar)
  have hco1 : Coherent (readSvc (initState d jar)).2 :=
    readSvc_snd_coherent _ (coherent_init d jar)
  obtain ⟨hd, hlcs, hlc, hmem⟩ :=
    foldl_remove_fields ((readSvc (initState d jar)).1.map Prod.fst) o
      (readSvc (initState d jar)).2
  have hfinal := hmem
  set final := (((readSvc (initState d jar)).1.map Prod.fst).foldl
    (fun s k => removeSvc s k o) (readSvc (initState d jar)).2) with hfin
  have hcof : Coherent final := by
    show final.lastCookies = jarParse final.lastCookieString
    rw [hlc, hlcs]
    exact hco1
  have hnameless : ∀ p ∈ final.jar, p.1 = [] := by
    intro p hp
    have hchar := (hfinal p).mp hp
    rw [hjar0] at hchar
    show (p.1 = [])
    by_contra hne
    obtain ⟨hpj, hall⟩ := hchar
    have hpjar : p ∈ jar := by
      show p ∈ (initState d jar).jar
      exact hpj
    have hcanon := (hwf p hpjar).1
    have hnoeq : ∀ c ∈ p.1, c ≠ '=' := by
      intro c hc
      rw [hcanon] at hc
      exact encode_no_eq (safeDecodeURIComponent p.1) c hc
    have hfree : ∀ q ∈ jar, ∀ c ∈ pairString q, c ≠ ';' := by
      intro q hq c hc
      rw [pairString] at hc
      rcases List.mem_append.mp hc with h | h
      · rw [(hwf q hq).1] at h
        exact encode_no_semi (safeDecodeURIComponent q.1) c h
      · rcases List.mem_cons.mp h with h0 | h0
        · rw [h0]
          decide
        · exact (hwf q hq).2 c h0
    have hkey : safeDecodeURIComponent p.1 ∈ (jarParse (joinJar jar)).map Prod.fst := by
      rw [jarParse, splitJar_joinJar jar (by intro hj; rw [hj] at hpjar; simp at hpjar) hfree]
      refine jarParse_key_mem (jar.map pairString) (pairString p)
        (safeDecodeURIComponent p.1) (safeDecodeURIComponent p.2) ?_
        (List.mem_map.mpr ⟨p, hpjar, rfl⟩)
      rw [pairString]
      exact parseSeg_pair p.1 p.2 hne hnoeq
    have := hall (safeDecodeURIComponent p.1) (by rw [hsnap]; exact hkey)
    rw [← hcanon] at this
    exact this rfl
  have hvals : ∀ p ∈ final.jar, ∀ c ∈ p.2, c ≠ ';' := by
    intro p hp
    have hchar := (hfinal p).mp hp
    rw [hjar0] at hchar
    exact (hwf p hchar.1).2
  show (readSvc final).1 = []
  rw [readSvc_fst final hcof]
  exact jarParse_nameless final.jar hnameless hvals

/-- C1 witness: roundtrip through the jar of a value containing a
semicolon, an equals sign, a space and a multi-byte character. -/
theorem C1_put_get_roundtrip_witness :
    (getSvc (putStoreSvc (initState {} []) ("n".data) ("; =√x".data) none) ("n".data)).1 =
      some ("; =√x".data) :=
  C1_put_get_roundtrip ("n".data) ("; =√x".data) (by decide)

/-- C4 witness at a concrete name and one-entry jar. -/
theorem C4_remove_deletes_witness :
    buildCookieString {} ("a".data) none none =
      encodeURIComponent ("a".data) ++ '=' ::
        (pathSeg (mergeOptions {} none) ++
          (';' :: (epochAttr ++ restSegs (mergeOptions {} none)))) ∧
    (getSvc (removeSvc (initState {} [("a".data, "1".data)]) ("a".data) none)
      ("a".data)).1 = none :=
  C4_remove_deletes {} none ("a".data) none [("a".data, "1".data)] rfl (by decide)

/-- C5 witness at the concrete example of the spec. -/
theorem C5_serialized_shape_witness :
    buildCookieString {} ("x".data) (some ("hello world".data)) none =
      specCookieString (mergeOptions {} none) ("x".data)
        ((some ("hello world".data)).getD []) ∧
    buildCookieString { path := some "/".data } "x".data (some "hello world".data) none =
      "x=hello%20world;path=/".data :=
  C5_serialized_shape {} none ("x".data) (some ("hello world".data)) (by decide)

/-- C6 witness: a parse that always fails leaves a stored raw value as a
raw passthrough. -/
theorem C6_getObject_tolerant_witness :
    (getObjectSvc (fun _ => (none : Option Nat)) (initState {} [("a".data, "x".data)])
      ("a".data)).1 = some (Sum.inr ("x".data)) :=
  (C6_getObject_tolerant Nat (fun _ => none) (initState {} [("a".data, "x".data)])
    ("a".data)).2.2 ("x".data) (by decide) rfl

/-- C8 witness at a two-entry jar. -/
theorem C8_removeAll_clears_witness :
    (getAllSvc (removeAllSvc
      (initState {} [("a".data, "1".data), ("b".data, "2".data)]) none)).1 = [] :=
  C8_removeAll_clears {} [("a".data, "1".data), ("b".data, "2".data)] none (by decide)

/-- C9 witness: a per-call path overrides only the path, the domain keeps
its default. -/
theorem C9_shallow_merge_witness :
    (mergeOptions { domain := some "d".data } (some { path := some "/".data })).path =
      some ("/".data) ∧
    (mergeOptions { domain := some "d".data } (some { path := some "/".data })).domain =
      some ("d".data) :=
  ⟨((C9_shallow_merge { domain := some "d".data } { path := some "/".data }).1.1
      (by decide)).trans rfl,
    ((C9_shallow_merge { domain := some "d".data } { path := some "/".data }).2.1.2
      rfl).trans rfl⟩

/-- C10 witness: a segment with no equals sign between two ordinary
segments contributes nothing. -/
theorem C10_nameless_segments_witness :
    readGo (["a=1".data, "x".data, "b=2".data]) [] =
      readGo (["a=1".data, "b=2".data]) [] ∧
    jarParse [] = [] := by
  have h := C10_nameless_segments ("x".data) (Or.inl (by decide))
  exact ⟨h.1 ["a=1".data] ["b=2".data] [], h.2⟩
